import Mathlib

/-!
Verification of the region layout compiler of the rehex repository.

The central functions `REHex.Tab.compute_regions` and `REHex.Tab.repopulate_regions`
(together with the freeze/thaw coalescing) from src/src/Tab.cpp are shallowly
embedded below.  The collaborator classes that the compiler only queries
(BitOffset, the comment tree, the data-type map, the data-type registry, the
virtual segment map) are not part of the reviewed source files and are modelled
from the specification at their interface boundary.

C++ `assert` statements are modelled as fatal errors (`CompErr.assertFail`),
matching the specification's fail-fast contract; dereferencing an invalid
node index is modelled as `CompErr.badIndex`; the unbounded C++ loops are
given explicit fuel, with exhaustion reported as `CompErr.outOfFuel`.
-/

namespace REHex

/-- Modelled from the spec: BitOffset (spec sections 3 and 4.1) is a byte plus
sub-byte position or length with carry-aware arithmetic and total order; it is
represented here by its total number of bits, so one whole byte is 8.  The
BitOffset class itself is not among the source files under review. -/
abbrev BitOffset := Int

/-- Modelled from the spec: one node of the Comment Tree (spec section 3 and the
arena design note of section 9): a key (offset, length), display text, and
parent / first-child / next-sibling links given as arena indices. -/
structure CNode where
  offset : BitOffset
  length : BitOffset
  text : String
  parent : Option Nat
  firstChild : Option Nat
  next : Option Nat
deriving Repr, DecidableEq

/-- Modelled from the spec: the Comment Tree as an arena of nodes plus the first
root node in ascending offset order (`first_root_node`). -/
structure CTree where
  nodes : List CNode
  firstRoot : Option Nat
deriving Repr, DecidableEq

/-- Look a node up by arena index. -/
def CTree.node? (t : CTree) (i : Nat) : Option CNode := t.nodes.get? i

/-- Modelled from the spec: the climb step of the comment tree walker (spec
section 4.2): while the current node has no next sibling but has a parent,
climb to the parent; then move to the next sibling (possibly none).  Fuel
bounds the ancestor chain. -/
def CTree.climbNext (t : CTree) : Nat → Nat → Option Nat
  | 0, _ => none
  | fuel + 1, i =>
    match t.node? i with
    | none => none
    | some n =>
      match n.next with
      | some j => some j
      | none =>
        match n.parent with
        | some p => t.climbNext fuel p
        | none => none

/-- Modelled from the spec: forward iteration of the comment tree walker (spec
section 4.2): try the first child, else climb to find the next sibling. -/
def CTree.succAfter (t : CTree) (i : Nat) : Option Nat :=
  match t.node? i with
  | none => none
  | some n =>
    match n.firstChild with
    | some c => some c
    | none => t.climbNext (t.nodes.length + 1) i

/-- Well-formedness of a single comment node (spec section 3): non-negative
length, a valid parent whose range contains this node's range, a valid first
child starting no earlier than this node, and a valid next sibling whose range
starts at or after the end of this node's range. -/
structure CTree.NodeWF (t : CTree) (i : Nat) (n : CNode) : Prop where
  lenNonneg : 0 ≤ n.length
  parentValid : ∀ p, n.parent = some p → ∃ np, t.node? p = some np ∧
    np.offset ≤ n.offset ∧ n.offset + n.length ≤ np.offset + np.length
  childValid : ∀ c, n.firstChild = some c → ∃ cn, t.node? c = some cn ∧ n.offset ≤ cn.offset
  nextValid : ∀ j, n.next = some j → ∃ nj, t.node? j = some nj ∧ n.offset + n.length ≤ nj.offset

/-- Well-formedness of the comment tree: every node in the arena is well formed. -/
def CTree.WF (t : CTree) : Prop := ∀ i n, t.node? i = some n → t.NodeWF i n

/-- The first root node, if any, is a valid index and starts at a non-negative
absolute position (spec section 3: negative BitOffsets are never absolute
positions). -/
def CTree.rootOk (t : CTree) : Prop :=
  ∀ r, t.firstRoot = some r → ∃ n, t.node? r = some n ∧ 0 ≤ n.offset

/-- The empty comment tree. -/
def emptyCTree : CTree := { nodes := [], firstRoot := none }

/-- Modelled from the spec: a resolved Type Descriptor (spec section 3): whether
a region factory is provided, the optional fixed size (0 meaning unbounded) and
the word size. -/
structure DataTypeModel where
  hasRegionFactory : Bool
  regionFixedSize : BitOffset
  wordSize : BitOffset
deriving Repr, DecidableEq

/-- Modelled from the spec: one entry of the Type Partition: a range
[offset, offset + length) mapped to a type name (options are folded into the
name). -/
structure TypeAssign where
  offset : BitOffset
  length : BitOffset
  name : String
deriving Repr, DecidableEq

/-- Modelled from the spec: one virtual segment: a virtual range
[virtOffset, virtOffset + length) mapped to a real base offset. -/
structure VirtSeg where
  virtOffset : BitOffset
  length : BitOffset
  realBase : BitOffset
deriving Repr, DecidableEq

/-- Modelled from the spec: the read-only document state consulted by the
region compiler: buffer length (in whole bytes), the comment tree, the type
partition in ascending order, the registry lookup, and the virtual segment
map in ascending virtual order. -/
structure Doc where
  bufferLength : Int
  comments : CTree
  dataTypes : List TypeAssign
  getType : String → Option DataTypeModel
  virtSegs : List VirtSeg

/-- The inline comment display modes (ICM_* of the source). -/
inductive InlineCommentMode where
  | hidden
  | full
  | short
  | fullIndent
  | shortIndent
deriving Repr, DecidableEq, BEq

/-- The document display modes relevant to region population (DDM_* of the
source). -/
inductive DocumentDisplayMode where
  | ddmNormal
  | ddmVirtual
deriving Repr, DecidableEq

/-- One emitted region: a comment marker (CommentRegion), a typed data block
(a region produced by a type's region factory, with the type name as opaque
payload), a raw data block (DataRegionDocHighlight) or a bit-remainder block
(BitArrayRegion). -/
inductive Region where
  | commentMarker (offset length : BitOffset) (text : String) (truncate : Bool)
      (indentOffset indentLength : BitOffset)
  | typed (offset length virtOffset : BitOffset) (typeName : String)
  | raw (offset length virtOffset : BitOffset)
  | bitArr (offset length virtOffset : BitOffset)
deriving Repr, DecidableEq

/-- Whether a region consumes bytes of the domain (everything except a comment
marker). -/
def Region.isData : Region → Bool
  | .commentMarker _ _ _ _ _ _ => false
  | _ => true

/-- Whether a region is a plain raw data block (a DataRegionDocHighlight). -/
def Region.isRawData : Region → Bool
  | .raw _ _ _ => true
  | _ => false

/-- The length of domain consumed by a region (comment markers consume
nothing). -/
def Region.dLength : Region → BitOffset
  | .commentMarker _ _ _ _ _ _ => 0
  | .typed _ l _ _ => l
  | .raw _ l _ => l
  | .bitArr _ l _ => l

/-- The real offset a region was emitted at. -/
def Region.rOffset : Region → BitOffset
  | .commentMarker o _ _ _ _ _ => o
  | .typed o _ _ _ => o
  | .raw o _ _ => o
  | .bitArr o _ _ => o

/-- The virtual offset carried by a region (for a comment marker, its indent
offset). -/
def Region.vOffset : Region → BitOffset
  | .commentMarker _ _ _ _ io _ => io
  | .typed _ _ v _ => v
  | .raw _ _ v => v
  | .bitArr _ _ v => v

/-- The indent length of a comment marker (0 for data regions). -/
def Region.indentLength : Region → BitOffset
  | .commentMarker _ _ _ _ _ il => il
  | _ => 0

/-- The indent offset of a comment marker (0 for data regions). -/
def Region.indentOffset : Region → BitOffset
  | .commentMarker _ _ _ _ io _ => io
  | _ => 0

/-- Failure outcomes of a compile: an assertion failure (the fail-fast path of
the source), dereferencing an invalid arena index, or fuel exhaustion of a
modelled loop. -/
inductive CompErr where
  | assertFail
  | badIndex
  | outOfFuel
deriving Repr, DecidableEq

/-- The per-iteration state of the region compiler loop (Tab.cpp lines
2133-2165): comment cursor, type partition cursor, current real and virtual
positions, remaining length, and the LIFO nesting-close stack (head is the
top). -/
structure CompState where
  nextComment : Option Nat
  typesIdx : Nat
  nextData : BitOffset
  nextVirt : BitOffset
  remain : BitOffset
  drLimit : List BitOffset
deriving Repr, DecidableEq

/-- Tab.cpp lines 2138-2154: skip over comments prior to the start position,
descending to a first child when it starts at the same offset or at/after the
start, otherwise climbing to the next sibling. -/
def skipPrior (t : CTree) (start : BitOffset) : Nat → Option Nat → Except CompErr (Option Nat)
  | _, none => .ok none
  | 0, some _ => .error CompErr.outOfFuel
  | fuel + 1, some i =>
    match t.node? i with
    | none => .error CompErr.badIndex
    | some n =>
      if n.offset < start then
        match n.firstChild with
        | some c =>
          match t.node? c with
          | none => .error CompErr.badIndex
          | some cn =>
            if cn.offset = n.offset ∨ start ≤ cn.offset then
              skipPrior t start fuel (some c)
            else
              skipPrior t start fuel (t.climbNext (t.nodes.length + 1) i)
        | none => skipPrior t start fuel (t.climbNext (t.nodes.length + 1) i)
      else .ok (some i)

/-- Tab.cpp line 2156: advance the type cursor past assignments that end at or
before the start position. -/
def skipTypes (types : List TypeAssign) (start : BitOffset) : Nat → Nat → Nat
  | 0, i => i
  | fuel + 1, i =>
    match types.get? i with
    | none => i
    | some ta => if ta.offset + ta.length ≤ start then skipTypes types start fuel (i + 1) else i

/-- Tab.cpp lines 2172-2175: pop all nesting-close boundaries at or before the
current position. -/
def popLimits : List BitOffset → BitOffset → List BitOffset
  | [], _ => []
  | top :: rest, d => if top ≤ d then popLimits rest d else top :: rest

/-- Tab.cpp line 2170: the loop-head assertion that the comment cursor is not
behind the current position (dereferencing the cursor). -/
def checkComment (t : CTree) (nc : Option Nat) (d : BitOffset) : Except CompErr Unit :=
  match nc with
  | none => .ok ()
  | some i =>
    match t.node? i with
    | none => .error CompErr.badIndex
    | some n => if n.offset < d then .error CompErr.assertFail else .ok ()

/-- Tab.cpp lines 2183-2194: the CommentRegion built for one comment node: key
offset and length, text, truncate flag, indent offset = current virtual
position, indent length = min(comment length, remaining) when nesting else
zero. -/
def commentRegionFor (nest truncateFlag : Bool) (nextVirt remain : BitOffset) (n : CNode) : Region :=
  Region.commentMarker n.offset n.length n.text truncateFlag nextVirt
    (if nest then min n.length remain else 0)

/-- Tab.cpp lines 2196-2200: the nesting-close boundary pushed for a comment:
its end offset, pushed only when nesting and the comment length is positive. -/
def commentPush (nest : Bool) (n : CNode) : Option BitOffset :=
  if nest ∧ 0 < n.length then some (n.offset + n.length) else none

/-- Tab.cpp lines 2181-2214: emit, in tree order, every comment whose offset
equals the current position, pushing nesting-close boundaries (with the
monotonicity assertion of line 2198) and advancing the cursor child-first. -/
def emitComments (doc : Doc) (nest truncateFlag : Bool) (nextData nextVirt remain : BitOffset) :
    Nat → Option Nat → List BitOffset → List Region →
    Except CompErr (List Region × Option Nat × List BitOffset)
  | _, none, drl, acc => .ok (acc, none, drl)
  | 0, some _, _, _ => .error CompErr.outOfFuel
  | fuel + 1, some i, drl, acc =>
    match doc.comments.node? i with
    | none => .error CompErr.badIndex
    | some n =>
      if n.offset = nextData then
        let r := commentRegionFor nest truncateFlag nextVirt remain n
        match commentPush nest n with
        | some b =>
          match drl with
          | top :: _ =>
            if top < b then .error CompErr.assertFail
            else
              emitComments doc nest truncateFlag nextData nextVirt remain fuel
                (doc.comments.succAfter i) (b :: drl) (acc ++ [r])
          | [] =>
            emitComments doc nest truncateFlag nextData nextVirt remain fuel
              (doc.comments.succAfter i) (b :: drl) (acc ++ [r])
        | none =>
          emitComments doc nest truncateFlag nextData nextVirt remain fuel
            (doc.comments.succAfter i) drl (acc ++ [r])
      else .ok (acc, some i, drl)

/-- Tab.cpp lines 2218-2221: clamp the candidate block length to the distance
to the next unvisited comment (dereferencing the cursor). -/
def clampComment (t : CTree) (nc : Option Nat) (nextData d0 : BitOffset) : Except CompErr BitOffset :=
  match nc with
  | none => .ok d0
  | some i =>
    match t.node? i with
    | none => .error CompErr.badIndex
    | some n => .ok (if n.offset - nextData < d0 then n.offset - nextData else d0)

/-- Tab.cpp lines 2223-2228: clamp the candidate block length to the nearest
open nesting-close boundary, asserting that the boundary is ahead of the
current position. -/
def clampLimit (drl : List BitOffset) (nextData d1 : BitOffset) : Except CompErr BitOffset :=
  match drl with
  | [] => .ok d1
  | top :: _ =>
    if top ≤ nextData + d1 then
      if top ≤ nextData then .error CompErr.assertFail
      else .ok (top - nextData)
    else .ok d1

/-- Tab.cpp lines 2241-2248: the final length used for a typed data block:
clamp to the fixed size when it is positive and exceeded, otherwise round down
to a multiple of the word size when misaligned. -/
def typedFinalLength (dt : DataTypeModel) (d : BitOffset) : BitOffset :=
  if 0 < dt.regionFixedSize ∧ dt.regionFixedSize < d then dt.regionFixedSize
  else if d % dt.wordSize ≠ 0 then d - d % dt.wordSize else d

/-- Tab.cpp lines 2259-2270: the untyped emission: a bit-remainder block when
the length is below one byte, otherwise a raw data block rounded down to a
whole-byte length. -/
def rawOrBits (nextData nextVirt d : BitOffset) : Region :=
  if d < 8 then Region.bitArr nextData d nextVirt
  else if ¬ (d % 8 = 0) then Region.raw nextData (d - d % 8) nextVirt
  else Region.raw nextData d nextVirt

/-- Tab.cpp lines 2237-2271: resolve the type descriptor and emit either a
typed data block (asserting, line 2250, that the final length is positive) or
the untyped raw/bit-remainder block. -/
def emitData (doc : Doc) (ta : TypeAssign) (nextData nextVirt d : BitOffset) :
    Except CompErr Region :=
  match doc.getType ta.name with
  | some dt =>
    if dt.hasRegionFactory = true ∧ dt.regionFixedSize ≤ d then
      let d4 := typedFinalLength dt d
      if 0 < d4 then .ok (Region.typed nextData d4 nextVirt ta.name)
      else .error CompErr.assertFail
    else .ok (rawOrBits nextData nextVirt d)
  | none => .ok (rawOrBits nextData nextVirt d)

/-- Tab.cpp lines 2167-2280: one iteration of the compiler loop: the loop-head
assertions, popping the nesting stack, emitting comments at the current
position, the three downward clamps, the typed/raw/bit-remainder emission, and
the advance of position, virtual position, remaining length and type cursor. -/
def stepBody (doc : Doc) (nest truncateFlag : Bool) (st : CompState) :
    Except CompErr (List Region × CompState) :=
  if 8 * doc.bufferLength < st.nextData + st.remain then .error CompErr.assertFail
  else match checkComment doc.comments st.nextComment st.nextData with
  | .error e => .error e
  | .ok _ =>
    match emitComments doc nest truncateFlag st.nextData st.nextVirt st.remain
        (doc.comments.nodes.length + 1) st.nextComment (popLimits st.drLimit st.nextData) [] with
    | .error e => .error e
    | .ok (crs, nc1, drl1) =>
      match clampComment doc.comments nc1 st.nextData st.remain with
      | .error e => .error e
      | .ok d1 =>
        match clampLimit drl1 st.nextData d1 with
        | .error e => .error e
        | .ok d2 =>
          match doc.dataTypes.get? st.typesIdx with
          | none => .error CompErr.assertFail
          | some ta =>
            if st.nextData < ta.offset ∨ ta.offset + ta.length ≤ st.nextData then
              .error CompErr.assertFail
            else
              match emitData doc ta st.nextData st.nextVirt
                  (min d2 (ta.length - (st.nextData - ta.offset))) with
              | .error e => .error e
              | .ok r =>
                .ok (crs ++ [r],
                  { nextComment := nc1,
                    typesIdx := if ta.offset + ta.length ≤ st.nextData + r.dLength then
                        st.typesIdx + 1 else st.typesIdx,
                    nextData := st.nextData + r.dLength,
                    nextVirt := st.nextVirt + r.dLength,
                    remain := st.remain - r.dLength,
                    drLimit := drl1 })

/-- The compiler loop (Tab.cpp lines 2167-2281), iterated while the remaining
length is positive, with explicit fuel. -/
def computeLoop (doc : Doc) (nest truncateFlag : Bool) : Nat → CompState → Except CompErr (List Region)
  | 0, st => if st.remain ≤ 0 then .ok [] else .error CompErr.outOfFuel
  | fuel + 1, st =>
    if st.remain ≤ 0 then .ok []
    else
      match stepBody doc nest truncateFlag st with
      | .error e => .error e
      | .ok (rs, st') =>
        match computeLoop doc nest truncateFlag fuel st' with
        | .error e => .error e
        | .ok rest => .ok (rs ++ rest)

/-- REHex::Tab::compute_regions (Tab.cpp lines 2123-2284): set up the nest and
truncate flags, position the comment and type cursors, null the comment cursor
in hidden mode, and run the compiler loop. -/
def compute_regions (doc : Doc) (realOffsetBase virtOffsetBase len : BitOffset)
    (mode : InlineCommentMode) : Except CompErr (List Region) :=
  let nest := mode == InlineCommentMode.shortIndent || mode == InlineCommentMode.fullIndent
  let truncateFlag := mode == InlineCommentMode.short || mode == InlineCommentMode.shortIndent
  match skipPrior doc.comments realOffsetBase (doc.comments.nodes.length + 1) doc.comments.firstRoot with
  | .error e => .error e
  | .ok nc0 =>
    let ti0 := skipTypes doc.dataTypes realOffsetBase doc.dataTypes.length 0
    let nc1 := if mode == InlineCommentMode.hidden then none else nc0
    computeLoop doc nest truncateFlag (len.toNat + 1)
      { nextComment := nc1, typesIdx := ti0, nextData := realOffsetBase,
        nextVirt := virtOffsetBase, remain := len, drLimit := [] }

/-- The synthetic explanatory comment marker prepended when virtual mode is
requested but no virtual sections exist (Tab.cpp lines 2056-2057); its byte
offset -1 is -8 bits. -/
def syntheticMarker : Region :=
  Region.commentMarker (-8) 0 "No virtual sections defined, displaying file data instead." false (-8) 0

/-- Tab.cpp lines 2081-2096: post-process the file-view compile result: an
empty result (asserting the buffer is empty) becomes one zero-length raw data
block at offset 0; a result not ending in a plain raw data block gets a
zero-length raw data block appended at the end of the domain. -/
def finishFileRegions (doc : Doc) (frs : List Region) : Except CompErr (List Region) :=
  match frs.getLast? with
  | none =>
    if doc.bufferLength = 0 then .ok [Region.raw 0 0 0] else .error CompErr.assertFail
  | some r =>
    if r.isRawData then .ok frs
    else .ok (frs ++ [Region.raw (8 * doc.bufferLength) 0 (8 * doc.bufferLength)])

/-- The file-view path of REHex::Tab::repopulate_regions (Tab.cpp lines
2073-2099): compile the whole file over [0, buffer_length) with both bases 0,
then post-process. -/
def fileView (doc : Doc) (mode : InlineCommentMode) : Except CompErr (List Region) :=
  match compute_regions doc 0 0 (8 * doc.bufferLength) mode with
  | .error e => .error e
  | .ok frs => finishFileRegions doc frs

/-- Tab.cpp lines 2062-2070: compile each virtual segment in order and
concatenate the results. -/
def compileSegs (doc : Doc) (mode : InlineCommentMode) : List VirtSeg → Except CompErr (List Region)
  | [] => .ok []
  | s :: rest =>
    match compute_regions doc s.realBase s.virtOffset s.length mode with
    | .error e => .error e
    | .ok a =>
      match compileSegs doc mode rest with
      | .error e => .error e
      | .ok b => .ok (a ++ b)

/-- REHex::Tab::repopulate_regions (Tab.cpp lines 2034-2105) without the
freeze guard: the virtual branch falls back to the file view behind a
synthetic marker when the segment map is empty, otherwise concatenates the
per-segment compiles; the normal branch is the file view. -/
def repopulate_regions (doc : Doc) (displayMode : DocumentDisplayMode)
    (mode : InlineCommentMode) : Except CompErr (List Region) :=
  match displayMode with
  | DocumentDisplayMode.ddmVirtual =>
    match doc.virtSegs with
    | [] =>
      match fileView doc mode with
      | .error e => .error e
      | .ok rs => .ok (syntheticMarker :: rs)
    | _ => compileSegs doc mode doc.virtSegs
  | DocumentDisplayMode.ddmNormal => fileView doc mode

/-- The host-side per-tab state for the freeze/thaw recompute coalescing
(Tab.cpp lines 2038-2042 and 2107-2121): the frozen and pending flags, the
last published region list, and a count of performed compiles. -/
structure TabState where
  frozen : Bool
  pending : Bool
  regions : Except CompErr (List Region)
  compileCount : Nat

/-- Tab.cpp lines 2034-2105: a recompute request: while frozen it only records
the pending flag; otherwise it compiles and publishes the result. -/
def tabRepopulate (doc : Doc) (displayMode : DocumentDisplayMode) (mode : InlineCommentMode)
    (st : TabState) : TabState :=
  if st.frozen then { st with pending := true }
  else { st with regions := repopulate_regions doc displayMode mode,
                 compileCount := st.compileCount + 1 }

/-- Tab.cpp lines 2107-2110: freeze sets the frozen flag. -/
def tabFreeze (st : TabState) : TabState := { st with frozen := true }

/-- Tab.cpp lines 2112-2121: thaw clears the frozen flag and, if a request is
pending, performs exactly one recompute and clears the pending flag. -/
def tabThaw (doc : Doc) (displayMode : DocumentDisplayMode) (mode : InlineCommentMode)
    (st : TabState) : TabState :=
  let st1 := { st with frozen := false }
  if st1.pending then
    let st2 := tabRepopulate doc displayMode mode st1
    { st2 with pending := false }
  else st1

/-- Iterate n recompute requests. -/
def reqN (doc : Doc) (displayMode : DocumentDisplayMode) (mode : InlineCommentMode) :
    Nat → TabState → TabState
  | 0, st => st
  | n + 1, st => reqN doc displayMode mode n (tabRepopulate doc displayMode mode st)

/-- The byte-consuming regions of an emitted list, in emission order. -/
def dataRegions (rs : List Region) : List Region := rs.filter Region.isData

/-- The regions of a list are contiguous starting from the given position:
each starts exactly where the previous one ended. -/
def chainFrom : BitOffset → List Region → Bool
  | _, [] => true
  | d, r :: rest => r.rOffset == d && chainFrom (d + r.dLength) rest

/-- A 10-byte document with no comments and a single untyped assignment
covering the whole domain. -/
def docA : Doc :=
  { bufferLength := 10, comments := emptyCTree,
    dataTypes := [{ offset := 0, length := 80, name := "" }],
    getType := fun _ => none, virtSegs := [] }

/-- A document realising scenario D of the spec: two virtual segments,
virtual bytes [0,5) mapped to real byte 100 and virtual bytes [5,10) to real
byte 200 (all quantities in bits). -/
def docD : Doc :=
  { bufferLength := 205, comments := emptyCTree,
    dataTypes := [{ offset := 0, length := 1640, name := "" }],
    getType := fun _ => none,
    virtSegs := [{ virtOffset := 0, length := 40, realBase := 800 },
                 { virtOffset := 40, length := 40, realBase := 1600 }] }

/-- An empty document. -/
def docEmpty : Doc :=
  { bufferLength := 0, comments := emptyCTree, dataTypes := [],
    getType := fun _ => none, virtSegs := [] }

/-- A word type with a region factory, no fixed size, and a 4-byte word. -/
def dtW : DataTypeModel := { hasRegionFactory := true, regionFixedSize := 0, wordSize := 32 }

/-- A fixed-size type with a region factory. -/
def dtF : DataTypeModel := { hasRegionFactory := true, regionFixedSize := 16, wordSize := 32 }

/-- A 10-byte document whose whole domain is assigned the word type "w4". -/
def docW : Doc :=
  { bufferLength := 10, comments := emptyCTree,
    dataTypes := [{ offset := 0, length := 80, name := "w4" }],
    getType := fun s => if s = "w4" then some dtW else none, virtSegs := [] }

/-- docA with one virtual segment mapping virtual bytes [0,5) to real byte 0. -/
def docV : Doc :=
  { bufferLength := 10, comments := emptyCTree,
    dataTypes := [{ offset := 0, length := 80, name := "" }],
    getType := fun _ => none,
    virtSegs := [{ virtOffset := 0, length := 40, realBase := 0 }] }

/-- A one-node comment tree: a comment of 3 bytes at byte offset 2
(scenario A of the spec). -/
def treeA : CTree :=
  { nodes := [{ offset := 16, length := 24, text := "A", parent := none,
                firstChild := none, next := none }],
    firstRoot := some 0 }

/-- A zero-length comment node at byte offset 2. -/
def nodeZ : CNode :=
  { offset := 16, length := 0, text := "z", parent := none, firstChild := none, next := none }

/-- An initial tab state: not frozen, nothing pending, no compiles done. -/
def tab0 : TabState := { frozen := false, pending := false, regions := .ok [], compileCount := 0 }

end REHex

namespace REHex

theorem CTree.climbNext_ge (t : CTree) (hWF : t.WF) :
    ∀ fuel p np j, t.node? p = some np → t.climbNext fuel p = some j →
      ∃ nj, t.node? j = some nj ∧ np.offset + np.length ≤ nj.offset := by
  intro fuel
  induction fuel with
  | zero =>
    intro p np j hp hc
    simp [climbNext] at hc
  | succ f ih =>
    intro p np j hp hc
    rw [climbNext, hp] at hc
    dsimp only at hc
    cases hnext : np.next with
    | some j' =>
      rw [hnext] at hc
      dsimp only at hc
      obtain ⟨nj, hnj, hge⟩ := (hWF p np hp).nextValid j' hnext
      injection hc with hjj
      subst hjj
      exact ⟨nj, hnj, hge⟩
    | none =>
      rw [hnext] at hc
      dsimp only at hc
      cases hpar : np.parent with
      | some q =>
        rw [hpar] at hc
        dsimp only at hc
        obtain ⟨nq, hnq, hle1, hle2⟩ := (hWF p np hp).parentValid q hpar
        obtain ⟨nj, hnj, hge⟩ := ih q nq j hnq hc
        exact ⟨nj, hnj, by linarith⟩
      | none => rw [hpar] at hc; dsimp only at hc; cases hc

theorem CTree.succAfter_mono (t : CTree) (hWF : t.WF) (i : Nat) (n : CNode) (j : Nat)
    (hn : t.node? i = some n) (hs : t.succAfter i = some j) :
    ∃ nj, t.node? j = some nj ∧ n.offset ≤ nj.offset := by
  unfold succAfter at hs
  rw [hn] at hs
  dsimp only at hs
  cases hc : n.firstChild with
  | some c =>
    rw [hc] at hs
    dsimp only at hs
    obtain ⟨cn, hcn, hge⟩ := (hWF i n hn).childValid c hc
    injection hs with hjj
    subst hjj
    exact ⟨cn, hcn, hge⟩
  | none =>
    rw [hc] at hs
    dsimp only at hs
    obtain ⟨nj, hnj, hge⟩ := t.climbNext_ge hWF (t.nodes.length + 1) i n j hn hs
    have := (hWF i n hn).lenNonneg
    exact ⟨nj, hnj, by linarith⟩

theorem checkComment_ok (t : CTree) (nc : Option Nat) (d : BitOffset) (u : Unit)
    (h : checkComment t nc d = .ok u) :
    ∀ i, nc = some i → ∃ n, t.node? i = some n ∧ d ≤ n.offset := by
  intro i hi
  subst hi
  unfold checkComment at h
  dsimp only at h
  cases hn : t.node? i with
  | none => rw [hn] at h; dsimp only at h; cases h
  | some n =>
    rw [hn] at h
    dsimp only at h
    split at h
    · cases h
    · exact ⟨n, rfl, by linarith⟩

theorem emitComments_shape (doc : Doc) (nest tf : Bool) (nd nv rem : BitOffset) :
    ∀ fuel nc drl acc crs nc' drl',
      emitComments doc nest tf nd nv rem fuel nc drl acc = .ok (crs, nc', drl') →
      ∃ new, crs = acc ++ new ∧
        ∀ r ∈ new, ∃ n : CNode, n.offset = nd ∧ r = commentRegionFor nest tf nv rem n := by
  intro fuel
  induction fuel with
  | zero =>
    intro nc drl acc crs nc' drl' h
    cases nc with
    | none =>
      simp only [emitComments] at h
      obtain ⟨h1, h2, h3⟩ := by simpa using h
      exact ⟨[], by simp [← h1], by simp⟩
    | some i => simp [emitComments] at h
  | succ f ih =>
    intro nc drl acc crs nc' drl' h
    cases nc with
    | none =>
      simp only [emitComments] at h
      obtain ⟨h1, h2, h3⟩ := by simpa using h
      exact ⟨[], by simp [← h1], by simp⟩
    | some i =>
      rw [emitComments] at h
      cases hn : doc.comments.node? i with
      | none => rw [hn] at h; dsimp only at h; cases h
      | some n =>
        rw [hn] at h
        dsimp only at h
        by_cases ho : n.offset = nd
        · rw [if_pos ho] at h
          cases hp : commentPush nest n with
          | some b =>
            rw [hp] at h
            dsimp only at h
            have step :
                ∀ drl2, emitComments doc nest tf nd nv rem f (doc.comments.succAfter i) drl2
                    (acc ++ [commentRegionFor nest tf nv rem n]) = .ok (crs, nc', drl') →
                  ∃ new, crs = acc ++ new ∧
                    ∀ r ∈ new, ∃ m : CNode, m.offset = nd ∧ r = commentRegionFor nest tf nv rem m := by
              intro drl2 h2
              obtain ⟨new', hcrs, hmem⟩ := ih (doc.comments.succAfter i) drl2
                (acc ++ [commentRegionFor nest tf nv rem n]) crs nc' drl' h2
              refine ⟨commentRegionFor nest tf nv rem n :: new', by simp [hcrs], ?_⟩
              intro r hr
              rcases List.mem_cons.mp hr with hr | hr
              · exact ⟨n, ho, hr⟩
              · exact hmem r hr
            cases drl with
            | nil => exact step _ h
            | cons top tl =>
              dsimp only at h
              split at h
              · cases h
              · exact step _ h
          | none =>
            rw [hp] at h
            dsimp only at h
            obtain ⟨new', hcrs, hmem⟩ := ih (doc.comments.succAfter i) drl
              (acc ++ [commentRegionFor nest tf nv rem n]) crs nc' drl' h
            refine ⟨commentRegionFor nest tf nv rem n :: new', by simp [hcrs], ?_⟩
            intro r hr
            rcases List.mem_cons.mp hr with hr | hr
            · exact ⟨n, ho, hr⟩
            · exact hmem r hr
        · rw [if_neg ho] at h
          obtain ⟨h1, h2, h3⟩ := by simpa using h
          exact ⟨[], by simp [← h1], by simp⟩

theorem emitComments_cursor (doc : Doc) (hWF : doc.comments.WF) (nest tf : Bool)
    (nd nv rem : BitOffset) :
    ∀ fuel nc drl acc crs nc' drl',
      emitComments doc nest tf nd nv rem fuel nc drl acc = .ok (crs, nc', drl') →
      (∀ i n, nc = some i → doc.comments.node? i = some n → nd ≤ n.offset) →
      ∀ j, nc' = some j → ∃ nj, doc.comments.node? j = some nj ∧ nd < nj.offset := by
  intro fuel
  induction fuel with
  | zero =>
    intro nc drl acc crs nc' drl' h hpre j hj
    cases nc with
    | none =>
      obtain ⟨h1, h2, h3⟩ := by simpa [emitComments] using h
      rw [← h2] at hj; cases hj
    | some i => simp [emitComments] at h
  | succ f ih =>
    intro nc drl acc crs nc' drl' h hpre j hj
    cases nc with
    | none =>
      obtain ⟨h1, h2, h3⟩ := by simpa [emitComments] using h
      rw [← h2] at hj; cases hj
    | some i =>
      rw [emitComments] at h
      cases hn : doc.comments.node? i with
      | none => rw [hn] at h; dsimp only at h; cases h
      | some n =>
        rw [hn] at h
        dsimp only at h
        by_cases ho : n.offset = nd
        · rw [if_pos ho] at h
          have hpre' : ∀ i' n', doc.comments.succAfter i = some i' →
              doc.comments.node? i' = some n' → nd ≤ n'.offset := by
            intro i' n' hi' hn'
            obtain ⟨nj, hnj, hge⟩ := doc.comments.succAfter_mono hWF i n i' hn hi'
            rw [hnj] at hn'
            cases hn'
            linarith
          cases hp : commentPush nest n with
          | some b =>
            rw [hp] at h
            dsimp only at h
            cases drl with
            | nil => exact ih _ _ _ _ _ _ h hpre' j hj
            | cons top tl =>
              dsimp only at h
              split at h
              · cases h
              · exact ih _ _ _ _ _ _ h hpre' j hj
          | none =>
            rw [hp] at h
            dsimp only at h
            exact ih _ _ _ _ _ _ h hpre' j hj
        · rw [if_neg ho] at h
          obtain ⟨h1, h2, h3⟩ := by simpa using h
          rw [← h2] at hj
          injection hj with hij
          subst hij
          have hge := hpre i n rfl hn
          exact ⟨n, hn, lt_of_le_of_ne hge (fun hh => ho hh.symm)⟩

end REHex

namespace REHex

theorem rawOrBits_len (nd nv d : BitOffset) (hd : 0 < d) :
    0 < (rawOrBits nd nv d).dLength ∧ (rawOrBits nd nv d).dLength ≤ d := by
  have h8a : 0 ≤ d % 8 := Int.emod_nonneg d (by norm_num)
  have h8b : d % 8 < 8 := Int.emod_lt_of_pos d (by norm_num)
  unfold rawOrBits
  by_cases hlt : d < 8
  · rw [if_pos hlt]
    exact ⟨hd, le_refl _⟩
  · rw [if_neg hlt]
    by_cases hal : ¬ (d % 8 = 0)
    · rw [if_pos hal]
      constructor
      · show 0 < d - d % 8
        linarith [not_lt.mp hlt]
      · show d - d % 8 ≤ d
        linarith
    · rw [if_neg hal]
      exact ⟨hd, le_refl _⟩

theorem rawOrBits_fields (nd nv d : BitOffset) :
    (rawOrBits nd nv d).isData = true ∧ (rawOrBits nd nv d).rOffset = nd ∧
      (rawOrBits nd nv d).vOffset = nv ∧
      ∀ o l v nm, rawOrBits nd nv d ≠ Region.typed o l v nm := by
  unfold rawOrBits
  by_cases hlt : d < 8
  · rw [if_pos hlt]; simp [Region.isData, Region.rOffset, Region.vOffset]
  · rw [if_neg hlt]
    by_cases hal : ¬ (d % 8 = 0)
    · rw [if_pos hal]; simp [Region.isData, Region.rOffset, Region.vOffset]
    · rw [if_neg hal]; simp [Region.isData, Region.rOffset, Region.vOffset]

theorem emitData_ok (doc : Doc) (ta : TypeAssign) (nd nv d : BitOffset) (r : Region)
    (h : emitData doc ta nd nv d = .ok r) :
    r.isData = true ∧ r.rOffset = nd ∧ r.vOffset = nv ∧
      ∀ o l v nm, r = Region.typed o l v nm → 0 < l := by
  unfold emitData at h
  cases hg : doc.getType ta.name with
  | none =>
    rw [hg] at h
    dsimp only at h
    injection h with hr
    subst hr
    obtain ⟨h1, h2, h3, h4⟩ := rawOrBits_fields nd nv d
    exact ⟨h1, h2, h3, fun o l v nm he => absurd he (h4 o l v nm)⟩
  | some dt =>
    rw [hg] at h
    dsimp only at h
    by_cases hfac : dt.hasRegionFactory = true ∧ dt.regionFixedSize ≤ d
    · rw [if_pos hfac] at h
      by_cases hpos : 0 < typedFinalLength dt d
      · rw [if_pos hpos] at h
        injection h with hr
        subst hr
        refine ⟨rfl, rfl, rfl, ?_⟩
        intro o l v nm he
        injection he with e1 e2
        subst e2
        exact hpos
      · rw [if_neg hpos] at h
        cases h
    · rw [if_neg hfac] at h
      injection h with hr
      subst hr
      obtain ⟨h1, h2, h3, h4⟩ := rawOrBits_fields nd nv d
      exact ⟨h1, h2, h3, fun o l v nm he => absurd he (h4 o l v nm)⟩

theorem typedFinalLength_le (dt : DataTypeModel) (d : BitOffset)
    (hpos : 0 < typedFinalLength dt d) :
    typedFinalLength dt d ≤ d := by
  unfold typedFinalLength at hpos ⊢
  by_cases hcl : 0 < dt.regionFixedSize ∧ dt.regionFixedSize < d
  · rw [if_pos hcl]
    linarith [hcl.2]
  · rw [if_neg hcl] at hpos ⊢
    by_cases hal : d % dt.wordSize ≠ 0
    · rw [if_pos hal] at hpos ⊢
      by_cases hw : dt.wordSize = 0
      · rw [hw] at hpos
        simp [Int.emod_zero] at hpos
      · have := Int.emod_nonneg d hw
        linarith
    · rw [if_neg hal]

theorem emitData_len (doc : Doc) (ta : TypeAssign) (nd nv d : BitOffset) (r : Region)
    (h : emitData doc ta nd nv d = .ok r) (hd : 0 < d) :
    0 < r.dLength ∧ r.dLength ≤ d := by
  unfold emitData at h
  cases hg : doc.getType ta.name with
  | none =>
    rw [hg] at h
    dsimp only at h
    injection h with hr
    subst hr
    exact rawOrBits_len nd nv d hd
  | some dt =>
    rw [hg] at h
    dsimp only at h
    by_cases hfac : dt.hasRegionFactory = true ∧ dt.regionFixedSize ≤ d
    · rw [if_pos hfac] at h
      by_cases hpos : 0 < typedFinalLength dt d
      · rw [if_pos hpos] at h
        injection h with hr
        subst hr
        exact ⟨hpos, typedFinalLength_le dt d hpos⟩
      · rw [if_neg hpos] at h
        cases h
    · rw [if_neg hfac] at h
      injection h with hr
      subst hr
      exact rawOrBits_len nd nv d hd

end REHex


namespace REHex

theorem stepBody_shape (doc : Doc) (nest tf : Bool) (st : CompState)
    (rs : List Region) (st' : CompState)
    (h : stepBody doc nest tf st = .ok (rs, st')) :
    ∃ crs r, rs = crs ++ [r] ∧
      (∀ c ∈ crs, ∃ n : CNode, n.offset = st.nextData ∧
        c = commentRegionFor nest tf st.nextVirt st.remain n) ∧
      r.isData = true ∧ r.rOffset = st.nextData ∧ r.vOffset = st.nextVirt ∧
      (∀ o l v nm, r = Region.typed o l v nm → 0 < l) ∧
      st'.nextData = st.nextData + r.dLength ∧
      st'.nextVirt = st.nextVirt + r.dLength ∧
      st'.remain = st.remain - r.dLength := by
  unfold stepBody at h
  by_cases hbuf : 8 * doc.bufferLength < st.nextData + st.remain
  · rw [if_pos hbuf] at h; cases h
  rw [if_neg hbuf] at h
  cases hcc : checkComment doc.comments st.nextComment st.nextData with
  | error e => rw [hcc] at h; dsimp only at h; cases h
  | ok u =>
    rw [hcc] at h
    dsimp only at h
    cases hec : emitComments doc nest tf st.nextData st.nextVirt st.remain
        (doc.comments.nodes.length + 1) st.nextComment (popLimits st.drLimit st.nextData) [] with
    | error e => rw [hec] at h; dsimp only at h; cases h
    | ok trip =>
      obtain ⟨crs, nc1, drl1⟩ := trip
      rw [hec] at h
      dsimp only at h
      cases hd1 : clampComment doc.comments nc1 st.nextData st.remain with
      | error e => rw [hd1] at h; dsimp only at h; cases h
      | ok d1 =>
        rw [hd1] at h
        dsimp only at h
        cases hd2 : clampLimit drl1 st.nextData d1 with
        | error e => rw [hd2] at h; dsimp only at h; cases h
        | ok d2 =>
          rw [hd2] at h
          dsimp only at h
          cases hta : doc.dataTypes.get? st.typesIdx with
          | none => rw [hta] at h; dsimp only at h; cases h
          | some ta =>
            rw [hta] at h
            dsimp only at h
            by_cases hcov : st.nextData < ta.offset ∨ ta.offset + ta.length ≤ st.nextData
            · rw [if_pos hcov] at h; cases h
            rw [if_neg hcov] at h
            cases hed : emitData doc ta st.nextData st.nextVirt
                (min d2 (ta.length - (st.nextData - ta.offset))) with
            | error e => rw [hed] at h; dsimp only at h; cases h
            | ok r0 =>
              rw [hed] at h
              dsimp only at h
              injection h with hpair
              injection hpair with hrs hst
              subst hrs
              subst hst
              obtain ⟨new, hnew, hmem⟩ := emitComments_shape doc nest tf st.nextData st.nextVirt
                st.remain _ _ _ _ _ _ _ hec
              obtain ⟨e1, e2, e3, e4⟩ := emitData_ok doc ta st.nextData st.nextVirt _ r0 hed
              refine ⟨crs, r0, rfl, ?_, e1, e2, e3, e4, rfl, rfl, rfl⟩
              intro c hc
              rw [hnew] at hc
              exact hmem c (by simpa using hc)

theorem stepBody_sound (doc : Doc) (hWF : doc.comments.WF) (nest tf : Bool) (st : CompState)
    (rs : List Region) (st' : CompState) (hrem : 0 < st.remain)
    (h : stepBody doc nest tf st = .ok (rs, st')) :
    ∃ crs r, rs = crs ++ [r] ∧
      (∀ c ∈ crs, ∃ n : CNode, n.offset = st.nextData ∧
        c = commentRegionFor nest tf st.nextVirt st.remain n) ∧
      r.isData = true ∧ r.rOffset = st.nextData ∧ r.vOffset = st.nextVirt ∧
      0 < r.dLength ∧ r.dLength ≤ st.remain ∧
      st'.nextData = st.nextData + r.dLength ∧
      st'.nextVirt = st.nextVirt + r.dLength ∧
      st'.remain = st.remain - r.dLength := by
  unfold stepBody at h
  by_cases hbuf : 8 * doc.bufferLength < st.nextData + st.remain
  · rw [if_pos hbuf] at h; cases h
  rw [if_neg hbuf] at h
  cases hcc : checkComment doc.comments st.nextComment st.nextData with
  | error e => rw [hcc] at h; dsimp only at h; cases h
  | ok u =>
    rw [hcc] at h
    dsimp only at h
    cases hec : emitComments doc nest tf st.nextData st.nextVirt st.remain
        (doc.comments.nodes.length + 1) st.nextComment (popLimits st.drLimit st.nextData) [] with
    | error e => rw [hec] at h; dsimp only at h; cases h
    | ok trip =>
      obtain ⟨crs, nc1, drl1⟩ := trip
      rw [hec] at h
      dsimp only at h
      cases hd1 : clampComment doc.comments nc1 st.nextData st.remain with
      | error e => rw [hd1] at h; dsimp only at h; cases h
      | ok d1 =>
        rw [hd1] at h
        dsimp only at h
        cases hd2 : clampLimit drl1 st.nextData d1 with
        | error e => rw [hd2] at h; dsimp only at h; cases h
        | ok d2 =>
          rw [hd2] at h
          dsimp only at h
          cases hta : doc.dataTypes.get? st.typesIdx with
          | none => rw [hta] at h; dsimp only at h; cases h
          | some ta =>
            rw [hta] at h
            dsimp only at h
            by_cases hcov : st.nextData < ta.offset ∨ ta.offset + ta.length ≤ st.nextData
            · rw [if_pos hcov] at h; cases h
            rw [if_neg hcov] at h
            cases hed : emitData doc ta st.nextData st.nextVirt
                (min d2 (ta.length - (st.nextData - ta.offset))) with
            | error e => rw [hed] at h; dsimp only at h; cases h
            | ok r0 =>
              rw [hed] at h
              dsimp only at h
              injection h with hpair
              injection hpair with hrs hst
              subst hrs
              subst hst
              obtain ⟨new, hnew, hmem⟩ := emitComments_shape doc nest tf st.nextData st.nextVirt
                st.remain _ _ _ _ _ _ _ hec
              obtain ⟨e1, e2, e3, _⟩ := emitData_ok doc ta st.nextData st.nextVirt _ r0 hed
              have hpre : ∀ i n, st.nextComment = some i →
                  doc.comments.node? i = some n → st.nextData ≤ n.offset := by
                intro i n hi hn
                obtain ⟨n2, hn2, hle⟩ := checkComment_ok doc.comments st.nextComment st.nextData
                  u hcc i hi
                rw [hn] at hn2
                injection hn2 with he
                rw [he]
                exact hle
              have hcur := emitComments_cursor doc hWF nest tf st.nextData st.nextVirt st.remain
                _ _ _ _ _ _ _ hec hpre
              have hd1b : 0 < d1 ∧ d1 ≤ st.remain := by
                unfold clampComment at hd1
                cases nc1 with
                | none =>
                  dsimp only at hd1
                  injection hd1 with he
                  rw [← he]
                  exact ⟨hrem, le_refl _⟩
                | some j =>
                  obtain ⟨nj, hnj, hlt⟩ := hcur j rfl
                  dsimp only at hd1
                  rw [hnj] at hd1
                  dsimp only at hd1
                  injection hd1 with he
                  by_cases hv : nj.offset - st.nextData < st.remain
                  · rw [if_pos hv] at he
                    rw [← he]
                    constructor
                    · linarith
                    · linarith
                  · rw [if_neg hv] at he
                    rw [← he]
                    exact ⟨hrem, le_refl _⟩
              have hd2b : 0 < d2 ∧ d2 ≤ d1 := by
                unfold clampLimit at hd2
                cases drl1 with
                | nil =>
                  dsimp only at hd2
                  injection hd2 with he
                  rw [← he]
                  exact ⟨hd1b.1, le_refl _⟩
                | cons top tl =>
                  dsimp only at hd2
                  by_cases hb1 : top ≤ st.nextData + d1
                  · rw [if_pos hb1] at hd2
                    by_cases hb2 : top ≤ st.nextData
                    · rw [if_pos hb2] at hd2; cases hd2
                    · rw [if_neg hb2] at hd2
                      injection hd2 with he
                      rw [← he]
                      constructor
                      · linarith [not_le.mp hb2]
                      · linarith
                  · rw [if_neg hb1] at hd2
                    injection hd2 with he
                    rw [← he]
                    exact ⟨hd1b.1, le_refl _⟩
              have hcov2 : ta.offset ≤ st.nextData ∧ st.nextData < ta.offset + ta.length := by
                push_neg at hcov
                exact hcov
              have hd3 : 0 < min d2 (ta.length - (st.nextData - ta.offset)) := by
                apply lt_min hd2b.1
                linarith [hcov2.2]
              have hlen := emitData_len doc ta st.nextData st.nextVirt _ r0 hed hd3
              refine ⟨crs, r0, rfl, ?_, e1, e2, e3, hlen.1, ?_, rfl, rfl, rfl⟩
              · intro c hc
                rw [hnew] at hc
                exact hmem c (by simpa using hc)
              · calc r0.dLength ≤ min d2 (ta.length - (st.nextData - ta.offset)) := hlen.2
                  _ ≤ d2 := min_le_left _ _
                  _ ≤ d1 := hd2b.2
                  _ ≤ st.remain := hd1b.2

end REHex

namespace REHex

theorem commentRegionFor_isData (nest tf : Bool) (nv rem : BitOffset) (n : CNode) :
    (commentRegionFor nest tf nv rem n).isData = false := rfl

theorem commentRegionFor_dLength (nest tf : Bool) (nv rem : BitOffset) (n : CNode) :
    (commentRegionFor nest tf nv rem n).dLength = 0 := rfl

theorem commentRegionFor_rOffset (nest tf : Bool) (nv rem : BitOffset) (n : CNode) :
    (commentRegionFor nest tf nv rem n).rOffset = n.offset := rfl

theorem commentRegionFor_vOffset (nest tf : Bool) (nv rem : BitOffset) (n : CNode) :
    (commentRegionFor nest tf nv rem n).vOffset = nv := rfl

theorem computeLoop_tiles (doc : Doc) (hWF : doc.comments.WF) (nest tf : Bool) :
    ∀ fuel st out, 0 ≤ st.remain → computeLoop doc nest tf fuel st = .ok out →
      chainFrom st.nextData (dataRegions out) = true ∧
      ((dataRegions out).map Region.dLength).sum = st.remain ∧
      ∀ r ∈ dataRegions out, 0 < r.dLength := by
  intro fuel
  induction fuel with
  | zero =>
    intro st out h0 h
    rw [computeLoop] at h
    by_cases hr : st.remain ≤ 0
    · rw [if_pos hr] at h
      injection h with he
      subst he
      have hz : st.remain = 0 := le_antisymm hr h0
      refine ⟨rfl, ?_, by simp [dataRegions]⟩
      simp [dataRegions, hz]
    · rw [if_neg hr] at h; cases h
  | succ f ih =>
    intro st out h0 h
    rw [computeLoop] at h
    by_cases hr : st.remain ≤ 0
    · rw [if_pos hr] at h
      injection h with he
      subst he
      have hz : st.remain = 0 := le_antisymm hr h0
      refine ⟨rfl, ?_, by simp [dataRegions]⟩
      simp [dataRegions, hz]
    · rw [if_neg hr] at h
      cases hsb : stepBody doc nest tf st with
      | error e => rw [hsb] at h; dsimp only at h; cases h
      | ok pr =>
        obtain ⟨rs, st'⟩ := pr
        rw [hsb] at h
        dsimp only at h
        cases hrest : computeLoop doc nest tf f st' with
        | error e => rw [hrest] at h; dsimp only at h; cases h
        | ok rest =>
          rw [hrest] at h
          dsimp only at h
          injection h with he
          subst he
          obtain ⟨crs, r, hrs, hmem, hisd, hro, hvo, hpos, hle, hnd, hnv, hrem'⟩ :=
            stepBody_sound doc hWF nest tf st rs st' (lt_of_not_le hr) hsb
          have h0' : 0 ≤ st'.remain := by rw [hrem']; linarith
          obtain ⟨ihc, ihs, ihp⟩ := ih st' rest h0' hrest
          have hcrs0 : dataRegions crs = [] := by
            refine List.filter_eq_nil_iff.mpr ?_
            intro c hc
            obtain ⟨n, _, hce⟩ := hmem c hc
            rw [hce, commentRegionFor_isData]
            simp
          have hdR : dataRegions (rs ++ rest) = r :: dataRegions rest := by
            unfold dataRegions at hcrs0 ⊢
            rw [hrs, List.filter_append, List.filter_append, hcrs0]
            simp [hisd]
          rw [hdR]
          refine ⟨?_, ?_, ?_⟩
          · rw [chainFrom]
            rw [hnd] at ihc
            simp [hro, ihc]
          · rw [hrem'] at ihs
            simp only [List.map_cons, List.sum_cons, ihs]
            linarith
          · intro r' hr'
            rcases List.mem_cons.mp hr' with hr' | hr'
            · rw [hr']; exact hpos
            · exact ihp r' hr'

theorem computeLoop_lockstep (doc : Doc) (nest tf : Bool) :
    ∀ fuel st out, computeLoop doc nest tf fuel st = .ok out →
      ∀ r ∈ out, r.vOffset - r.rOffset = st.nextVirt - st.nextData := by
  intro fuel
  induction fuel with
  | zero =>
    intro st out h
    rw [computeLoop] at h
    by_cases hr : st.remain ≤ 0
    · rw [if_pos hr] at h
      injection h with he
      subst he
      simp
    · rw [if_neg hr] at h; cases h
  | succ f ih =>
    intro st out h
    rw [computeLoop] at h
    by_cases hr : st.remain ≤ 0
    · rw [if_pos hr] at h
      injection h with he
      subst he
      simp
    · rw [if_neg hr] at h
      cases hsb : stepBody doc nest tf st with
      | error e => rw [hsb] at h; dsimp only at h; cases h
      | ok pr =>
        obtain ⟨rs, st'⟩ := pr
        rw [hsb] at h
        dsimp only at h
        cases hrest : computeLoop doc nest tf f st' with
        | error e => rw [hrest] at h; dsimp only at h; cases h
        | ok rest =>
          rw [hrest] at h
          dsimp only at h
          injection h with he
          subst he
          obtain ⟨crs, r, hrs, hmem, hisd, hro, hvo, _, hnd, hnv, hrem'⟩ :=
            stepBody_shape doc nest tf st rs st' hsb
          intro r' hr'
          rcases List.mem_append.mp hr' with hr' | hr'
          · rw [hrs] at hr'
            rcases List.mem_append.mp hr' with hr' | hr'
            · obtain ⟨n, hn, hce⟩ := hmem r' hr'
              rw [hce, commentRegionFor_rOffset, commentRegionFor_vOffset, hn]
            · rcases List.mem_singleton.mp hr' with rfl
              rw [hro, hvo]
          · have := ih st' rest hrest r' hr'
            rw [hnd, hnv] at this
            rw [this]
            ring

theorem computeLoop_typedPos (doc : Doc) (nest tf : Bool) :
    ∀ fuel st out, computeLoop doc nest tf fuel st = .ok out →
      ∀ o l v nm, Region.typed o l v nm ∈ out → 0 < l := by
  intro fuel
  induction fuel with
  | zero =>
    intro st out h
    rw [computeLoop] at h
    by_cases hr : st.remain ≤ 0
    · rw [if_pos hr] at h
      injection h with he
      subst he
      simp
    · rw [if_neg hr] at h; cases h
  | succ f ih =>
    intro st out h
    rw [computeLoop] at h
    by_cases hr : st.remain ≤ 0
    · rw [if_pos hr] at h
      injection h with he
      subst he
      simp
    · rw [if_neg hr] at h
      cases hsb : stepBody doc nest tf st with
      | error e => rw [hsb] at h; dsimp only at h; cases h
      | ok pr =>
        obtain ⟨rs, st'⟩ := pr
        rw [hsb] at h
        dsimp only at h
        cases hrest : computeLoop doc nest tf f st' with
        | error e => rw [hrest] at h; dsimp only at h; cases h
        | ok rest =>
          rw [hrest] at h
          dsimp only at h
          injection h with he
          subst he
          obtain ⟨crs, r, hrs, hmem, hisd, hro, hvo, htyp, hnd, hnv, hrem'⟩ :=
            stepBody_shape doc nest tf st rs st' hsb
          intro o l v nm hmem'
          rcases List.mem_append.mp hmem' with hr' | hr'
          · rw [hrs] at hr'
            rcases List.mem_append.mp hr' with hr' | hr'
            · obtain ⟨n, _, hce⟩ := hmem _ hr'
              exact absurd hce.symm (by simp [commentRegionFor])
            · rcases List.mem_singleton.mp hr' with he
              exact htyp o l v nm he.symm
          · exact ih st' rest hrest o l v nm hr'

theorem computeLoop_markerIndent (doc : Doc) (nest tf : Bool) :
    ∀ fuel st out, computeLoop doc nest tf fuel st = .ok out →
      ∀ o l tx tr io il, Region.commentMarker o l tx tr io il ∈ out → l = 0 → il = 0 := by
  intro fuel
  induction fuel with
  | zero =>
    intro st out h
    rw [computeLoop] at h
    by_cases hr : st.remain ≤ 0
    · rw [if_pos hr] at h
      injection h with he
      subst he
      simp
    · rw [if_neg hr] at h; cases h
  | succ f ih =>
    intro st out h
    rw [computeLoop] at h
    by_cases hr : st.remain ≤ 0
    · rw [if_pos hr] at h
      injection h with he
      subst he
      simp
    · rw [if_neg hr] at h
      cases hsb : stepBody doc nest tf st with
      | error e => rw [hsb] at h; dsimp only at h; cases h
      | ok pr =>
        obtain ⟨rs, st'⟩ := pr
        rw [hsb] at h
        dsimp only at h
        cases hrest : computeLoop doc nest tf f st' with
        | error e => rw [hrest] at h; dsimp only at h; cases h
        | ok rest =>
          rw [hrest] at h
          dsimp only at h
          injection h with he
          subst he
          obtain ⟨crs, r, hrs, hmem, hisd, hro, hvo, htyp, hnd, hnv, hrem'⟩ :=
            stepBody_shape doc nest tf st rs st' hsb
          intro o l tx tr io il hmem' hl
          rcases List.mem_append.mp hmem' with hr' | hr'
          · rw [hrs] at hr'
            rcases List.mem_append.mp hr' with hr' | hr'
            · obtain ⟨n, _, hce⟩ := hmem _ hr'
              rw [commentRegionFor] at hce
              injection hce.symm with e1 e2 e3 e4 e5 e6
              rw [← e6]
              rw [← e2] at hl
              rw [hl]
              have hrem : (0 : BitOffset) < st.remain := lt_of_not_le hr
              by_cases hn2 : nest = true
              · rw [if_pos hn2]
                exact min_eq_left (le_of_lt hrem)
              · rw [if_neg hn2]
            · rcases List.mem_singleton.mp hr' with he
              rw [← he] at hisd
              cases hisd
          · exact ih st' rest hrest o l tx tr io il hr' hl

end REHex

namespace REHex

theorem stepBody_none (doc : Doc) (nest tf : Bool) (st : CompState)
    (hnc : st.nextComment = none) :
    (∀ t2, stepBody doc nest tf st = stepBody { doc with comments := t2 } nest tf st) ∧
    ∀ rs st', stepBody doc nest tf st = .ok (rs, st') →
      st'.nextComment = none ∧ ∀ c ∈ rs, c.isData = true := by
  constructor
  · intro t2
    unfold stepBody
    rw [hnc]
    rfl
  · intro rs st' h
    unfold stepBody at h
    rw [hnc] at h
    simp only [checkComment, emitComments, clampComment] at h
    by_cases hbuf : 8 * doc.bufferLength < st.nextData + st.remain
    · rw [if_pos hbuf] at h; cases h
    rw [if_neg hbuf] at h
    cases hd2 : clampLimit (popLimits st.drLimit st.nextData) st.nextData st.remain with
    | error e => rw [hd2] at h; dsimp only at h; cases h
    | ok d2 =>
      rw [hd2] at h
      dsimp only at h
      cases hta : doc.dataTypes.get? st.typesIdx with
      | none => rw [hta] at h; dsimp only at h; cases h
      | some ta =>
        rw [hta] at h
        dsimp only at h
        by_cases hcov : st.nextData < ta.offset ∨ ta.offset + ta.length ≤ st.nextData
        · rw [if_pos hcov] at h; cases h
        rw [if_neg hcov] at h
        cases hed : emitData doc ta st.nextData st.nextVirt
            (min d2 (ta.length - (st.nextData - ta.offset))) with
        | error e => rw [hed] at h; dsimp only at h; cases h
        | ok r0 =>
          rw [hed] at h
          dsimp only at h
          injection h with hpair
          injection hpair with hrs hst
          subst hrs
          subst hst
          refine ⟨rfl, ?_⟩
          intro c hc
          simp only [List.nil_append, List.mem_singleton] at hc
          rw [hc]
          exact (emitData_ok doc ta st.nextData st.nextVirt _ r0 hed).1

theorem computeLoop_none_eq (doc : Doc) (nest tf : Bool) :
    ∀ fuel st t2, st.nextComment = none →
      computeLoop doc nest tf fuel st = computeLoop { doc with comments := t2 } nest tf fuel st := by
  intro fuel
  induction fuel with
  | zero => intro st t2 hnc; rfl
  | succ f ih =>
    intro st t2 hnc
    rw [computeLoop, computeLoop]
    by_cases hr : st.remain ≤ 0
    · rw [if_pos hr, if_pos hr]
    · rw [if_neg hr, if_neg hr]
      rw [← (stepBody_none doc nest tf st hnc).1 t2]
      cases hsb : stepBody doc nest tf st with
      | error e => rfl
      | ok pr =>
        obtain ⟨rs, st'⟩ := pr
        dsimp only
        rw [ih st' t2 ((stepBody_none doc nest tf st hnc).2 rs st' hsb).1]

theorem computeLoop_none_data (doc : Doc) (nest tf : Bool) :
    ∀ fuel st out, st.nextComment = none → computeLoop doc nest tf fuel st = .ok out →
      ∀ r ∈ out, r.isData = true := by
  intro fuel
  induction fuel with
  | zero =>
    intro st out hnc h
    rw [computeLoop] at h
    by_cases hr : st.remain ≤ 0
    · rw [if_pos hr] at h
      injection h with he
      subst he
      simp
    · rw [if_neg hr] at h; cases h
  | succ f ih =>
    intro st out hnc h
    rw [computeLoop] at h
    by_cases hr : st.remain ≤ 0
    · rw [if_pos hr] at h
      injection h with he
      subst he
      simp
    · rw [if_neg hr] at h
      cases hsb : stepBody doc nest tf st with
      | error e => rw [hsb] at h; dsimp only at h; cases h
      | ok pr =>
        obtain ⟨rs, st'⟩ := pr
        rw [hsb] at h
        dsimp only at h
        cases hrest : computeLoop doc nest tf f st' with
        | error e => rw [hrest] at h; dsimp only at h; cases h
        | ok rest =>
          rw [hrest] at h
          dsimp only at h
          injection h with he
          subst he
          obtain ⟨hnc', hdat⟩ := (stepBody_none doc nest tf st hnc).2 rs st' hsb
          intro r hr'
          rcases List.mem_append.mp hr' with hr' | hr'
          · exact hdat r hr'
          · exact ih st' rest hnc' hrest r hr'

theorem compute_regions_loop (doc : Doc) (b v L : BitOffset) (mode : InlineCommentMode)
    (nc0 : Option Nat)
    (hsp : skipPrior doc.comments b (doc.comments.nodes.length + 1) doc.comments.firstRoot
      = .ok nc0) :
    compute_regions doc b v L mode =
      computeLoop doc (mode == InlineCommentMode.shortIndent || mode == InlineCommentMode.fullIndent)
        (mode == InlineCommentMode.short || mode == InlineCommentMode.shortIndent) (L.toNat + 1)
        { nextComment := if mode == InlineCommentMode.hidden then none else nc0,
          typesIdx := skipTypes doc.dataTypes b doc.dataTypes.length 0,
          nextData := b, nextVirt := v, remain := L, drLimit := [] } := by
  unfold compute_regions
  rw [hsp]

end REHex

namespace REHex

theorem emptyCTree_wf : CTree.WF emptyCTree := by
  intro i n h
  cases i <;> exact Option.noConfusion h

theorem emptyCTree_rootOk : CTree.rootOk emptyCTree := by
  intro r h
  exact Option.noConfusion h

/-- Claim C1: for every well-formed comment tree and every compile over
[base, base + L), the byte-consuming regions of the emitted list, in emission
order, are contiguous starting exactly at the real base, have positive
lengths (hence no overlaps), and their lengths sum exactly to L. -/
theorem c1_data_regions_tile (doc : Doc) (b v L : BitOffset) (mode : InlineCommentMode)
    (rs : List Region) (hWF : doc.comments.WF) (hL : 0 ≤ L)
    (h : compute_regions doc b v L mode = .ok rs) :
    chainFrom b (dataRegions rs) = true ∧
    ((dataRegions rs).map Region.dLength).sum = L ∧
    ∀ r ∈ dataRegions rs, 0 < r.dLength := by
  unfold compute_regions at h
  cases hsp : skipPrior doc.comments b (doc.comments.nodes.length + 1) doc.comments.firstRoot with
  | error e => rw [hsp] at h; dsimp only at h; cases h
  | ok nc0 =>
    rw [hsp] at h
    dsimp only at h
    exact computeLoop_tiles doc hWF _ _ _ _ _ hL h

theorem c1_data_regions_tile_witness :
    CTree.WF docA.comments ∧ (0 : BitOffset) ≤ 80 ∧
    (chainFrom 0 (dataRegions [Region.raw 0 80 0]) = true ∧
      ((dataRegions [Region.raw 0 80 0]).map Region.dLength).sum = 80 ∧
      ∀ r ∈ dataRegions [Region.raw 0 80 0], 0 < r.dLength) :=
  ⟨emptyCTree_wf, by norm_num,
    c1_data_regions_tile docA 0 0 80 InlineCommentMode.full [Region.raw 0 80 0]
      emptyCTree_wf (by norm_num) rfl⟩

/-- Claim C2: in the typed-emission step, when the resolved descriptor has a
region factory and the clamped candidate is at least its fixed size, the final
length is the fixed size when that is positive and exceeded, and otherwise the
candidate rounded down to a multiple of the word size; the factory is invoked
exactly when that final length is positive, a zero final length is a fatal
assertion failure rather than a silent emission, and every typed data block of
a successful compile has strictly positive length. -/
theorem c2_typed_factory_positive :
    (∀ (dt : DataTypeModel) (d : BitOffset), 0 < dt.regionFixedSize → dt.regionFixedSize < d →
       typedFinalLength dt d = dt.regionFixedSize) ∧
    (∀ (dt : DataTypeModel) (d : BitOffset), ¬ (0 < dt.regionFixedSize ∧ dt.regionFixedSize < d) →
       typedFinalLength dt d = d - d % dt.wordSize) ∧
    (∀ (doc : Doc) (ta : TypeAssign) (nd nv d : BitOffset) (dt : DataTypeModel),
       doc.getType ta.name = some dt → dt.hasRegionFactory = true → dt.regionFixedSize ≤ d →
       (0 < typedFinalLength dt d →
          emitData doc ta nd nv d = .ok (Region.typed nd (typedFinalLength dt d) nv ta.name)) ∧
       (typedFinalLength dt d ≤ 0 → emitData doc ta nd nv d = .error CompErr.assertFail)) ∧
    ∀ (doc : Doc) (nest tf : Bool) (fuel : Nat) (st : CompState) (out : List Region),
      computeLoop doc nest tf fuel st = .ok out →
      ∀ o l v nm, Region.typed o l v nm ∈ out → 0 < l := by
  refine ⟨?_, ?_, ?_, computeLoop_typedPos⟩
  · intro dt d h1 h2
    unfold typedFinalLength
    rw [if_pos ⟨h1, h2⟩]
  · intro dt d hn
    unfold typedFinalLength
    rw [if_neg hn]
    by_cases hal : d % dt.wordSize ≠ 0
    · rw [if_pos hal]
    · rw [if_neg hal]
      push_neg at hal
      rw [hal]
      ring
  · intro doc ta nd nv d dt hg hfac hle
    constructor
    · intro hpos
      unfold emitData
      rw [hg]
      dsimp only
      rw [if_pos ⟨hfac, hle⟩, if_pos hpos]
    · intro hz
      unfold emitData
      rw [hg]
      dsimp only
      rw [if_pos ⟨hfac, hle⟩, if_neg (not_lt.mpr hz)]

theorem c2_typed_factory_positive_witness :
    typedFinalLength dtF 40 = dtF.regionFixedSize ∧
    typedFinalLength dtW 40 = 40 - 40 % dtW.wordSize ∧
    emitData docW { offset := 0, length := 80, name := "w4" } 0 0 40
      = .ok (Region.typed 0 (typedFinalLength dtW 40) 0 "w4") ∧
    ∀ o l v nm, Region.typed o l v nm ∈ [Region.raw 0 80 0] → 0 < l := by
  refine ⟨?_, ?_, ?_, ?_⟩
  · exact c2_typed_factory_positive.1 dtF 40 (by norm_num [dtF]) (by norm_num [dtF])
  · exact c2_typed_factory_positive.2.1 dtW 40 (by norm_num [dtW])
  · exact (c2_typed_factory_positive.2.2.1 docW { offset := 0, length := 80, name := "w4" }
      0 0 40 dtW rfl rfl (by norm_num [dtW])).1 (by decide)
  · exact c2_typed_factory_positive.2.2.2 docA false false 81
      { nextComment := none, typesIdx := 0, nextData := 0, nextVirt := 0,
        remain := 80, drLimit := [] } [Region.raw 0 80 0] rfl

end REHex

namespace REHex

/-- Claim C3: when a file-view compile result ends with a comment marker, the
post-processing appends exactly one trailing zero-length raw data block
positioned at the end of the domain after it. -/
theorem c3_trailing_anchor_after_marker (doc : Doc) (frs : List Region)
    (o l : BitOffset) (tx : String) (tr : Bool) (io il : BitOffset)
    (hlast : frs.getLast? = some (Region.commentMarker o l tx tr io il)) :
    finishFileRegions doc frs
      = .ok (frs ++ [Region.raw (8 * doc.bufferLength) 0 (8 * doc.bufferLength)]) := by
  unfold finishFileRegions
  rw [hlast]
  dsimp only
  rw [if_neg (by simp [Region.isRawData])]

theorem c3_trailing_anchor_after_marker_witness :
    finishFileRegions docA [Region.commentMarker 0 0 "c" false 0 0]
      = .ok ([Region.commentMarker 0 0 "c" false 0 0]
          ++ [Region.raw (8 * docA.bufferLength) 0 (8 * docA.bufferLength)]) :=
  c3_trailing_anchor_after_marker docA [Region.commentMarker 0 0 "c" false 0 0]
    0 0 "c" false 0 0 rfl

/-- Claim C4: the file-view trailing anchor is appended whenever the last
emitted region is not a plain raw data block, which includes typed data blocks
and bit-remainder blocks; and in virtual mode with a non-empty segment map the
output is exactly the concatenation of the per-segment compiles, with no
trailing anchor ever appended. -/
theorem c4_anchor_non_raw_and_virtual :
    (∀ (doc : Doc) (frs : List Region) (r : Region), frs.getLast? = some r →
       r.isRawData = false →
       finishFileRegions doc frs
         = .ok (frs ++ [Region.raw (8 * doc.bufferLength) 0 (8 * doc.bufferLength)])) ∧
    (∀ o l v nm, (Region.typed o l v nm).isRawData = false) ∧
    (∀ o l v, (Region.bitArr o l v).isRawData = false) ∧
    ∀ (doc : Doc) (mode : InlineCommentMode), doc.virtSegs ≠ [] →
      repopulate_regions doc DocumentDisplayMode.ddmVirtual mode
        = compileSegs doc mode doc.virtSegs := by
  refine ⟨?_, fun o l v nm => rfl, fun o l v => rfl, ?_⟩
  · intro doc frs r hlast hnr
    unfold finishFileRegions
    rw [hlast]
    dsimp only
    rw [if_neg (by rw [hnr]; simp)]
  · intro doc mode hne
    unfold repopulate_regions
    cases hvs : doc.virtSegs with
    | nil => exact absurd hvs hne
    | cons s rest => rfl

theorem c4_anchor_non_raw_and_virtual_witness :
    finishFileRegions docA [Region.typed 0 80 0 "w4"]
      = .ok ([Region.typed 0 80 0 "w4"]
          ++ [Region.raw (8 * docA.bufferLength) 0 (8 * docA.bufferLength)]) ∧
    (Region.typed 0 80 0 "w4").isRawData = false ∧
    (Region.bitArr 0 4 0).isRawData = false ∧
    repopulate_regions docV DocumentDisplayMode.ddmVirtual InlineCommentMode.full
      = compileSegs docV InlineCommentMode.full docV.virtSegs := by
  refine ⟨?_, c4_anchor_non_raw_and_virtual.2.1 0 80 0 "w4",
    c4_anchor_non_raw_and_virtual.2.2.1 0 4 0, ?_⟩
  · exact c4_anchor_non_raw_and_virtual.1 docA [Region.typed 0 80 0 "w4"]
      (Region.typed 0 80 0 "w4") rfl rfl
  · exact c4_anchor_non_raw_and_virtual.2.2.2 docV InlineCommentMode.full (by simp [docV])

/-- Claim C5: the virtual position advances in lockstep with the real
position: every region emitted by a compile with bases (b, v) satisfies
virtual offset minus real offset = v - b; and scenario D (two virtual
segments, virtual bytes [0,5) at real byte 100 and [5,10) at real byte 200,
no comments, no non-default types) compiles to exactly two raw data blocks
covering those ranges in order. -/
theorem c5_virtual_lockstep :
    (∀ (doc : Doc) (b v L : BitOffset) (mode : InlineCommentMode) (rs : List Region),
       compute_regions doc b v L mode = .ok rs →
       ∀ r ∈ rs, r.vOffset - r.rOffset = v - b) ∧
    repopulate_regions docD DocumentDisplayMode.ddmVirtual InlineCommentMode.full
      = .ok [Region.raw 800 40 0, Region.raw 1600 40 40] := by
  constructor
  · intro doc b v L mode rs h r hr
    unfold compute_regions at h
    cases hsp : skipPrior doc.comments b (doc.comments.nodes.length + 1)
        doc.comments.firstRoot with
    | error e => rw [hsp] at h; dsimp only at h; cases h
    | ok nc0 =>
      rw [hsp] at h
      dsimp only at h
      exact computeLoop_lockstep doc _ _ _ _ _ h r hr
  · rfl

theorem c5_virtual_lockstep_witness :
    (∀ r ∈ [Region.raw 800 40 0], r.vOffset - r.rOffset = (0 : BitOffset) - 800) ∧
    repopulate_regions docD DocumentDisplayMode.ddmVirtual InlineCommentMode.full
      = .ok [Region.raw 800 40 0, Region.raw 1600 40 40] :=
  ⟨c5_virtual_lockstep.1 docD 800 0 40 InlineCommentMode.full [Region.raw 800 40 0] rfl,
    c5_virtual_lockstep.2⟩

end REHex

namespace REHex

/-- Claim C6: a zero-length comment's marker carries no indent sub-range in
any display mode; a marker's indent sub-range starts at the current virtual
position with length min(comment length, remaining) exactly when the mode
nests and the comment length is positive; a nesting-close boundary is pushed
exactly in that same case; and in every successful compile, every marker of a
zero-length comment has indent length zero. -/
theorem c6_zero_length_comment_indent :
    (∀ (nest tf : Bool) (nv rem : BitOffset) (n : CNode), 0 ≤ rem → n.length = 0 →
       (commentRegionFor nest tf nv rem n).indentLength = 0) ∧
    (∀ (tf : Bool) (nv rem : BitOffset) (n : CNode), 0 < n.length → 0 < rem →
       (commentRegionFor true tf nv rem n).indentOffset = nv ∧
       (commentRegionFor true tf nv rem n).indentLength = min n.length rem ∧
       0 < (commentRegionFor true tf nv rem n).indentLength) ∧
    (∀ (nest tf : Bool) (nv rem : BitOffset) (n : CNode), 0 ≤ rem → 0 ≤ n.length →
       (commentRegionFor nest tf nv rem n).indentLength ≠ 0 → nest = true ∧ 0 < n.length) ∧
    (∀ (nest : Bool) (n : CNode), commentPush nest n ≠ none ↔ nest = true ∧ 0 < n.length) ∧
    ∀ (doc : Doc) (nest tf : Bool) (fuel : Nat) (st : CompState) (out : List Region),
      computeLoop doc nest tf fuel st = .ok out →
      ∀ o l tx tr io il, Region.commentMarker o l tx tr io il ∈ out → l = 0 → il = 0 := by
  refine ⟨?_, ?_, ?_, ?_, computeLoop_markerIndent⟩
  · intro nest tf nv rem n h0 hl
    cases nest with
    | false => rfl
    | true =>
      show min n.length rem = 0
      rw [hl]
      exact min_eq_left h0
  · intro tf nv rem n hl hr
    exact ⟨rfl, rfl, lt_min hl hr⟩
  · intro nest tf nv rem n h0 hln hne
    cases nest with
    | false => exact absurd rfl hne
    | true =>
      refine ⟨rfl, ?_⟩
      rcases lt_or_eq_of_le hln with h | h
      · exact h
      · exfalso
        apply hne
        show min n.length rem = 0
        rw [← h]
        exact min_eq_left h0
  · intro nest n
    unfold commentPush
    by_cases hc : nest = true ∧ 0 < n.length
    · rw [if_pos hc]
      simp [hc]
    · rw [if_neg hc]
      simp [hc]

theorem c6_zero_length_comment_indent_witness :
    (commentRegionFor true true 5 7 nodeZ).indentLength = 0 ∧
    (commentRegionFor true false 5 7 { nodeZ with length := 24 }).indentLength
      = min (24 : BitOffset) 7 ∧
    (commentPush true nodeZ ≠ none ↔ (true = true ∧ (0 : BitOffset) < nodeZ.length)) ∧
    ∀ o l tx tr io il, Region.commentMarker o l tx tr io il ∈ [Region.raw 0 80 0] →
      l = 0 → il = 0 := by
  refine ⟨?_, ?_, c6_zero_length_comment_indent.2.2.2.1 true nodeZ, ?_⟩
  · exact c6_zero_length_comment_indent.1 true true 5 7 nodeZ (by norm_num) rfl
  · exact (c6_zero_length_comment_indent.2.1 false 5 7 { nodeZ with length := 24 }
      (by norm_num) (by norm_num)).2.1
  · exact c6_zero_length_comment_indent.2.2.2.2 docA false false 81
      { nextComment := none, typesIdx := 0, nextData := 0, nextVirt := 0,
        remain := 80, drLimit := [] } [Region.raw 0 80 0] rfl

/-- Claim C7: in hidden mode the compiler loop starts with no comment cursor;
with no comment cursor the loop's behaviour is identical for any comment tree
(so the tree has no effect on the boundaries or lengths of the emitted
regions), and a successful compile emits only data regions — no comment
markers at all. -/
theorem c7_hidden_mode :
    (∀ (doc : Doc) (b v L : BitOffset) (nc0 : Option Nat),
       skipPrior doc.comments b (doc.comments.nodes.length + 1) doc.comments.firstRoot
         = .ok nc0 →
       compute_regions doc b v L InlineCommentMode.hidden =
         computeLoop doc false false (L.toNat + 1)
           { nextComment := none,
             typesIdx := skipTypes doc.dataTypes b doc.dataTypes.length 0,
             nextData := b, nextVirt := v, remain := L, drLimit := [] }) ∧
    (∀ (doc : Doc) (t2 : CTree) (nest tf : Bool) (fuel : Nat) (st : CompState),
       st.nextComment = none →
       computeLoop doc nest tf fuel st
         = computeLoop { doc with comments := t2 } nest tf fuel st) ∧
    ∀ (doc : Doc) (nest tf : Bool) (fuel : Nat) (st : CompState) (out : List Region),
      st.nextComment = none → computeLoop doc nest tf fuel st = .ok out →
      ∀ r ∈ out, r.isData = true := by
  refine ⟨?_, ?_, ?_⟩
  · intro doc b v L nc0 hsp
    rw [compute_regions_loop doc b v L InlineCommentMode.hidden nc0 hsp]
    rfl
  · intro doc t2 nest tf fuel st hnc
    exact computeLoop_none_eq doc nest tf fuel st t2 hnc
  · intro doc nest tf fuel st out hnc h
    exact computeLoop_none_data doc nest tf fuel st out hnc h

theorem c7_hidden_mode_witness :
    compute_regions docA 0 0 80 InlineCommentMode.hidden =
      computeLoop docA false false 81
        { nextComment := none, typesIdx := skipTypes docA.dataTypes 0 docA.dataTypes.length 0,
          nextData := 0, nextVirt := 0, remain := 80, drLimit := [] } ∧
    computeLoop docA false false 81
        { nextComment := none, typesIdx := 0, nextData := 0, nextVirt := 0,
          remain := 80, drLimit := [] }
      = computeLoop { docA with comments := treeA } false false 81
        { nextComment := none, typesIdx := 0, nextData := 0, nextVirt := 0,
          remain := 80, drLimit := [] } ∧
    ∀ r ∈ [Region.raw 0 80 0], r.isData = true := by
  refine ⟨?_, ?_, ?_⟩
  · exact c7_hidden_mode.1 docA 0 0 80 none rfl
  · exact c7_hidden_mode.2.1 docA treeA false false 81
      { nextComment := none, typesIdx := 0, nextData := 0, nextVirt := 0,
        remain := 80, drLimit := [] } rfl
  · exact c7_hidden_mode.2.2 docA false false 81
      { nextComment := none, typesIdx := 0, nextData := 0, nextVirt := 0,
        remain := 80, drLimit := [] } [Region.raw 0 80 0] rfl rfl

end REHex

namespace REHex

/-- Claim C8: when virtual mode is requested but the virtual segment map is
empty, the output is exactly the synthetic explanatory comment marker
prepended to the file-view result (the compile of the whole file over
[0, buffer_length) with both bases 0); the marker is a comment region of
length zero, so it consumes no bytes of the domain. -/
theorem c8_virtual_empty_fallback (doc : Doc) (mode : InlineCommentMode)
    (hv : doc.virtSegs = []) :
    repopulate_regions doc DocumentDisplayMode.ddmVirtual mode
      = Except.map (fun rs => syntheticMarker :: rs)
          (repopulate_regions doc DocumentDisplayMode.ddmNormal mode) ∧
    syntheticMarker.isData = false ∧ syntheticMarker.dLength = 0 := by
  refine ⟨?_, rfl, rfl⟩
  unfold repopulate_regions
  rw [hv]
  dsimp only
  cases hf : fileView doc mode with
  | error e => rfl
  | ok rs => rfl

theorem c8_virtual_empty_fallback_witness :
    repopulate_regions docA DocumentDisplayMode.ddmVirtual InlineCommentMode.full
      = Except.map (fun rs => syntheticMarker :: rs)
          (repopulate_regions docA DocumentDisplayMode.ddmNormal InlineCommentMode.full) ∧
    syntheticMarker.isData = false ∧ syntheticMarker.dLength = 0 :=
  c8_virtual_empty_fallback docA InlineCommentMode.full rfl

/-- Claim C9: a file-view compile over an empty domain (buffer length 0)
produces exactly one region: a zero-length raw data block at offset 0, the
anchor position for appending data. -/
theorem c9_empty_domain_anchor (doc : Doc) (mode : InlineCommentMode)
    (hb : doc.bufferLength = 0) (hrt : doc.comments.rootOk) :
    repopulate_regions doc DocumentDisplayMode.ddmNormal mode = .ok [Region.raw 0 0 0] := by
  have hL : 8 * doc.bufferLength = 0 := by rw [hb]; ring
  have hsp : skipPrior doc.comments 0 (doc.comments.nodes.length + 1) doc.comments.firstRoot
      = .ok doc.comments.firstRoot := by
    cases hfr : doc.comments.firstRoot with
    | none => rfl
    | some r =>
      obtain ⟨n, hn, h0⟩ := hrt r hfr
      rw [skipPrior, hn]
      dsimp only
      rw [if_neg (not_lt.mpr h0)]
  have hcr : compute_regions doc 0 0 (8 * doc.bufferLength) mode = .ok [] := by
    rw [compute_regions_loop doc 0 0 (8 * doc.bufferLength) mode doc.comments.firstRoot hsp]
    rw [computeLoop]
    rw [if_pos (le_of_eq hL)]
  show fileView doc mode = .ok [Region.raw 0 0 0]
  unfold fileView
  rw [hcr]
  dsimp only
  unfold finishFileRegions
  simp only [List.getLast?_nil]
  rw [if_pos hb]

theorem c9_empty_domain_anchor_witness :
    docEmpty.bufferLength = 0 ∧
    repopulate_regions docEmpty DocumentDisplayMode.ddmNormal InlineCommentMode.full
      = .ok [Region.raw 0 0 0] :=
  ⟨rfl, c9_empty_domain_anchor docEmpty InlineCommentMode.full rfl emptyCTree_rootOk⟩

theorem reqN_frozen (doc : Doc) (dm : DocumentDisplayMode) (im : InlineCommentMode) :
    ∀ (n : Nat) (st : TabState), st.frozen = true →
      reqN doc dm im n st = if n = 0 then st else { st with pending := true } := by
  intro n
  induction n with
  | zero => intro st h; rfl
  | succ m ih =>
    intro st h
    rw [reqN]
    rw [show tabRepopulate doc dm im st = { st with pending := true } from by
      unfold tabRepopulate; rw [if_pos h]]
    rw [ih { st with pending := true } h]
    by_cases hm : m = 0
    · rw [if_pos hm, if_neg (Nat.succ_ne_zero m)]
    · rw [if_neg hm, if_neg (Nat.succ_ne_zero m)]

/-- Claim C10: while recompute is frozen, a recompute request only sets the
pending flag — it performs no compile and leaves the published regions and the
compile count unchanged; and starting from a state with nothing pending,
freezing, issuing n requests and thawing leaves the regions and compile count
untouched during the freeze and performs exactly one compile on thaw when
n ≥ 1 and none when n = 0, clearing the pending flag. -/
theorem c10_freeze_thaw :
    (∀ (doc : Doc) (dm : DocumentDisplayMode) (im : InlineCommentMode) (st : TabState),
       st.frozen = true → tabRepopulate doc dm im st = { st with pending := true }) ∧
    ∀ (doc : Doc) (dm : DocumentDisplayMode) (im : InlineCommentMode) (st : TabState) (n : Nat),
      st.pending = false →
      (reqN doc dm im n (tabFreeze st)).regions = st.regions ∧
      (reqN doc dm im n (tabFreeze st)).compileCount = st.compileCount ∧
      (tabThaw doc dm im (reqN doc dm im n (tabFreeze st))).compileCount
        = st.compileCount + (if n = 0 then 0 else 1) ∧
      (tabThaw doc dm im (reqN doc dm im n (tabFreeze st))).pending = false := by
  constructor
  · intro doc dm im st h
    unfold tabRepopulate
    rw [if_pos h]
  · intro doc dm im st n hp
    have hfz : (tabFreeze st).frozen = true := rfl
    rw [reqN_frozen doc dm im n (tabFreeze st) hfz]
    by_cases hn : n = 0
    · rw [if_pos hn, if_pos hn]
      refine ⟨?_, ?_, ?_, ?_⟩ <;>
        simp [tabThaw, tabFreeze, tabRepopulate, hp]
    · rw [if_neg hn, if_neg hn]
      refine ⟨?_, ?_, ?_, ?_⟩ <;>
        simp [tabThaw, tabFreeze, tabRepopulate, hp]

theorem c10_freeze_thaw_witness :
    tabRepopulate docA DocumentDisplayMode.ddmNormal InlineCommentMode.full
        { tab0 with frozen := true }
      = { { tab0 with frozen := true } with pending := true } ∧
    (tabThaw docA DocumentDisplayMode.ddmNormal InlineCommentMode.full
        (reqN docA DocumentDisplayMode.ddmNormal InlineCommentMode.full 3
          (tabFreeze tab0))).compileCount
      = tab0.compileCount + (if 3 = 0 then 0 else 1) ∧
    (tabThaw docA DocumentDisplayMode.ddmNormal InlineCommentMode.full
        (reqN docA DocumentDisplayMode.ddmNormal InlineCommentMode.full 0
          (tabFreeze tab0))).compileCount
      = tab0.compileCount + (if 0 = 0 then 0 else 1) := by
  refine ⟨?_, ?_, ?_⟩
  · exact c10_freeze_thaw.1 docA DocumentDisplayMode.ddmNormal InlineCommentMode.full
      { tab0 with frozen := true } rfl
  · exact (c10_freeze_thaw.2 docA DocumentDisplayMode.ddmNormal InlineCommentMode.full
      tab0 3 rfl).2.2.1
  · exact (c10_freeze_thaw.2 docA DocumentDisplayMode.ddmNormal InlineCommentMode.full
      tab0 0 rfl).2.2.1

end REHex
